import Mathlib

/-!
Verification of the symbolic-arithmetic core of the `algebra` repository.

The repository holds two near-duplicate snapshots of the same engine:
the `notation` module tree (`src/notation/…`, value type `Notation`) and the
`sym` module tree (`src/sym/…`, value type `Sym`).  Both are embedded below.

Modelling conventions:
* Rust `i32` values are embedded as `Int`.  Overflow checks (`checked_add`,
  `checked_mul`, `saturating_*`) are modelled with explicit range tests
  against `i32min`/`i32max`.  An arithmetic operation that panics in Rust
  (debug-mode overflow of `-`, `abs`, the always-panicking `i32::MIN % -1`
  and `i32::MIN / -1`, and every `todo!()`/`unreachable!()`) is modelled by
  returning `none`; functions on paths where the source cannot panic stay
  total.  The radical reducer and the factoring helpers are embedded with
  exact integer arithmetic — no claim about them concerns overflow.
* Rust `%` and `/` on `i32` truncate toward zero; they are embedded as
  `Int.tmod` and `Int.tdiv`.
* Rust `PartialEq` (`==`) of the value types is NOT structural equality:
  the source defines `Undefined == Undefined` to be `false` (NaN-style).
  It is embedded separately as the `rustEq…` functions.
-/

/-- Lower bound of `i32`: -2^31. -/
def i32min : Int := -2147483648

/-- Upper bound of `i32`: 2^31 - 1. -/
def i32max : Int := 2147483647

/-- `n` fits in `i32` (used to model `checked_add` / `checked_mul`). -/
def inI32 (n : Int) : Bool := i32min ≤ n && n ≤ i32max

/-! ## Bounded integer utilities (`src/lib.rs`, `src/notation/expr/radical.rs`)

`sqrt_i` scans candidate roots upward from 2, exactly as the source loop:
`Less → root += 1`, `Equal → Some(root)`, `Greater → None`.  The fuel
argument only bounds the recursion; `fuel = n` always suffices because the
scan stops at the latest when `root = n` (for `n ≥ 2`), so the fuel-exhausted
arm is dead at the single call site. -/

/-- The candidate-root scan of `sqrt_i` (loop body of the `2..` arm). -/
def sqrtGo (n : Nat) : Nat → Nat → Option Nat
  | root, 0 => if root * root = n then some root else none
  | root, fuel + 1 =>
    if root * root < n then sqrtGo n (root + 1) fuel
    else if root * root = n then some root else none

/-- Rust `sqrt_i(n)`: the exact integer square root, if one exists.
`..=-1 → None`, `0..=1 → Some(n)`, `2.. →` scan from 2. -/
def sqrt_i (n : Int) : Option Int :=
  if n ≤ -1 then none
  else if n ≤ 1 then some n
  else (sqrtGo n.toNat 2 n.toNat).map (fun r => (r : Int))

/-! ## Factoring engine (`src/factor.rs`) -/

/-- Rust `self.is_multiple_of(other)`: `self % other == 0`.
Total model; the call sites embedded below never pass the panicking
operand pairs (`other = 0`, or `(i32::MIN, -1)` which is guarded). -/
def is_multiple_of (a b : Int) : Bool := a.tmod b == 0

/-- Rust `self.is_factor_of(other)`: `other.is_multiple_of(*self)`. -/
def is_factor_of (a b : Int) : Bool := is_multiple_of b a

/-- Rust `n.factors()`: `[(1, n)]` followed by `(fac, n / fac)` for every
`fac` in `2..n.abs()` (exclusive upper bound) dividing `n.abs()`. -/
def factors (n : Int) : List (Int × Int) :=
  (1, n) :: (List.range' 2 (n.natAbs - 2)).filterMap (fun (potFac : Nat) =>
    let fac : Int := potFac
    if is_factor_of fac (n.natAbs : Int)
    then some (fac, n.tdiv fac)
    else none)

/-- The two permutations `[(common, associated), (associated, common)]` taken
of every factor pair inside the radical reducer's search loop (the inner
`for (a, b) in permutations` loop, flattened). -/
def allPairs (n : Int) : List (Int × Int) :=
  (factors n).flatMap (fun p => [(p.1, p.2), (p.2, p.1)])

/-- One step of the greatest-perfect-square search: if `a` (the first
component) has an integer square root larger than the best root so far,
adopt that root and the associated cofactor. -/
def gpsStep (acc : Int × Int) (p : Int × Int) : Int × Int :=
  match sqrt_i p.1 with
  | some aRoot => if aRoot > acc.1 then (aRoot, p.2) else acc
  | none => acc

/-- The whole greatest-perfect-square search of the radical reducer:
fold `gpsStep` over all (permuted) factor pairs of `n`, starting from
`(gps_fac, gps_mul) = (1, n)`. -/
def gpsSearch (n : Int) : Int × Int := (allPairs n).foldl gpsStep (1, n)

/-- Downward scan of `gcf` over candidates `counter, counter-1, …, 2`,
returning the first common factor, with `1` as the fallback. -/
def gcfAux (a b : Int) : Nat → Int
  | 0 => 1
  | 1 => 1
  | k + 2 =>
    if is_factor_of ((k : Int) + 2) a && is_factor_of ((k : Int) + 2) b
    then (k : Int) + 2
    else gcfAux a b (k + 1)

/-- Rust `gcf([a, b])` for nonnegative inputs (the only call site passes the
two absolute values): scan `(2..=min).rev()`, fallback 1.  The source is
generic over the array length; it is instantiated here at its single use,
length 2. -/
def gcf (a b : Int) : Int := gcfAux a b (min a b).toNat

/-! ## The `notation` snapshot value model (`src/notation/…`)

The Rust `Notation` enum is named `Nota` here (`notation` is reserved in
Lean).  `Number { value: i32 }` is inlined as the `Int` payload of
`Atom.number`. -/

/-- Rust `enum Atom` of `src/notation/atom.rs`. -/
inductive Atom where
  | number (value : Int)
  | complex
  | undefined
  | huge
  | negativeHuge
  | epsilon
  | negativeEpsilon
deriving DecidableEq, Repr

/-- Rust `struct Fraction { num: Atom, den: Atom }`. -/
structure Fraction where
  num : Atom
  den : Atom
deriving DecidableEq, Repr

/-- Rust `struct Radical { coef: i32, rad: i32 }`. -/
structure Radical where
  coef : Int
  rad : Int
deriving DecidableEq, Repr

/-- Rust `enum Expr` of `src/notation/expr.rs`. -/
inductive Expr where
  | fraction (f : Fraction)
  | radical (r : Radical)
deriving DecidableEq, Repr

/-- Rust `enum Notation` of `src/notation.rs` (renamed: `notation` is a
reserved word in Lean). -/
inductive Nota where
  | atom (a : Atom)
  | expr (e : Expr)
deriving DecidableEq, Repr

namespace Atom

/-- Rust `Atom::is_number`. -/
def is_number : Atom → Bool
  | .number _ => true
  | _ => false

/-- Rust `Atom::is_positive`: `Number(value: 0..) | Huge | Epsilon`. -/
def is_positive : Atom → Bool
  | .number n => 0 ≤ n
  | .huge => true
  | .epsilon => true
  | _ => false

/-- Rust `Atom::is_complex`. -/
def is_complex : Atom → Bool
  | .complex => true
  | _ => false

/-- Rust `Atom::is_undefined`. -/
def is_undefined : Atom → Bool
  | .undefined => true
  | _ => false

/-- Rust `Atom::is_huge`: `Huge | NegativeHuge`. -/
def is_huge : Atom → Bool
  | .huge => true
  | .negativeHuge => true
  | _ => false

/-- Rust `Atom::is_epsilon`: `Epsilon | NegativeEpsilon`. -/
def is_epsilon : Atom → Bool
  | .epsilon => true
  | .negativeEpsilon => true
  | _ => false

/-- The source pattern `Number(Num { value: 0 })`. -/
def is_zero_number : Atom → Bool
  | .number n => n == 0
  | _ => false

/-- Rust `impl Neg for Atom`.  The `Number` arm negates the payload; in the
embedded call sites negation is only ever applied to sentinel atoms, so the
`i32` overflow of `-i32::MIN` cannot occur there. -/
def neg : Atom → Atom
  | .number n => .number (-n)
  | .complex => .complex
  | .undefined => .undefined
  | .huge => .negativeHuge
  | .negativeHuge => .huge
  | .epsilon => .negativeEpsilon
  | .negativeEpsilon => .epsilon

/-- Rust `impl PartialEq for Atom`: only `Number == Number` compares by
value; every other pair — including `Undefined == Undefined` — is `false`. -/
def rustEq : Atom → Atom → Bool
  | .number a, .number b => a == b
  | _, _ => false

/-- The atom's `Number` payload lies in the `i32` range (all sentinel atoms
are vacuously in range). -/
def inRange : Atom → Bool
  | .number n => inI32 n
  | _ => true

end Atom

namespace Fraction

/-- Derived `PartialEq` on `Fraction`: fieldwise Rust equality (which uses
`Atom`'s non-reflexive `PartialEq`). -/
def rustEq (f g : Fraction) : Bool := f.num.rustEq g.num && f.den.rustEq g.den

/-- Both atoms of the fraction are in `i32` range. -/
def inRange (f : Fraction) : Bool := f.num.inRange && f.den.inRange

/-- Rust `impl Simplify for Fraction` (`src/notation/expr/fraction.rs`),
arms in source order.  `none` models a Rust panic: `num % den` and
`num / den` panic at `(i32::MIN, -1)`, and `.abs()` panics at `i32::MIN`
(debug semantics). -/
def simplify (f : Fraction) : Option Nota :=
  let num := f.num
  let den := f.den
  if num.is_complex || den.is_complex then some (.atom .complex)
  else if num.is_undefined || den.is_undefined || den.is_zero_number then
    some (.atom .undefined)
  else if num.is_zero_number then some (.atom (.number 0))
  else if (num.is_huge || num.is_epsilon) && den.is_number then
    some (.atom (if num.is_positive == den.is_positive then num else num.neg))
  else
    match num, den with
    | .number n, .number d =>
      if n = i32min && d = -1 then none
      else if n.tmod d = 0 then some (.atom (.number (n.tdiv d)))
      else if n = i32min || d = i32min then none
      else
        let sign : Int := if decide (n < 0) != decide (d < 0) then -1 else 1
        let numAbs : Int := n.natAbs
        let denAbs : Int := d.natAbs
        let g := gcf numAbs denAbs
        some (.expr (.fraction
          { num := .number (sign * numAbs.tdiv g), den := .number (denAbs.tdiv g) }))
    | num, den =>
      if num.is_huge && den.is_huge then
        some (.atom (if num.is_positive == den.is_positive then .huge else .negativeHuge))
      else if den.is_huge then
        some (.atom (if num.is_positive == den.is_positive then .epsilon else .negativeEpsilon))
      else
        some (.atom (if num.is_positive == den.is_positive then .huge else .negativeHuge))

end Fraction

namespace Radical

/-- Rust `Radical::squared`: `coef * coef * rad`. -/
def squared (r : Radical) : Int := r.coef * r.coef * r.rad

/-- Rust `impl Simplify for Radical` (`src/notation/expr/radical.rs`).
Embedded with exact integer arithmetic (no claim about the radical reducer
concerns `i32` overflow).  The `for`-loops over `n.factors()` and the two
permutations are the fold over `allPairs n`, with accumulator
`(gps_fac, gps_mul)` initialised to `(1, n)`. -/
def simplify (r : Radical) : Nota :=
  if r.rad ≤ -1 then .atom .complex
  else if r.rad = 0 then .atom (.number 0)
  else if r.rad = 1 then .atom (.number r.coef)
  else
    match sqrt_i r.rad with
    | some root => .atom (.number (r.coef * root))
    | none =>
      let n := r.squared
      let gps := gpsSearch n
      .expr (.radical { coef := gps.1, rad := gps.2 })

/-- Derived `PartialEq` on `Radical`: fieldwise `i32` equality. -/
def rustEq (r s : Radical) : Bool := r.coef == s.coef && r.rad == s.rad

end Radical

namespace Expr

/-- Rust `impl Simplify for Expr`: dispatch to the two reducers. -/
def simplify : Expr → Option Nota
  | .fraction f => f.simplify
  | .radical r => some r.simplify

/-- Derived `PartialEq` on `Expr`. -/
def rustEq : Expr → Expr → Bool
  | .fraction f, .fraction g => f.rustEq g
  | .radical r, .radical s => r.rustEq s
  | _, _ => false

end Expr

namespace Nota

/-- Derived `PartialEq` on `Notation`. -/
def rustEq : Nota → Nota → Bool
  | .atom a, .atom b => a.rustEq b
  | .expr e, .expr f => e.rustEq f
  | _, _ => false

/-- Rust `impl PartialEq<Atom> for Notation`. -/
def rustEqAtom : Nota → Atom → Bool
  | .atom b, a => b.rustEq a
  | _, _ => false

/-- Re-simplifying a value the reducers produced: an `Atom` has no
`simplify` in the source and stands as it is; an `Expr` re-enters
`Expr::simplify`. -/
def resimplify : Nota → Option Nota
  | .atom a => some (.atom a)
  | .expr e => e.simplify

end Nota

/-! ## The `notation` snapshot operators (`src/notation/ops/…`) -/

/-- Rust `algebraic_mul` (`src/notation/ops/mul.rs`): `checked_mul`, falling
back to `saturating_mul` to pick `Huge`/`NegativeHuge` (the saturated value
is i32::MAX exactly when the true product exceeds it, i32::MIN when it
falls below; the `unreachable!()` arm is dead). -/
def algebraic_mul (lhs rhs : Int) : Nota :=
  if inI32 (lhs * rhs) then .atom (.number (lhs * rhs))
  else if i32max < lhs * rhs then .atom .huge
  else .atom .negativeHuge

namespace Nota

/-- Rust `impl Mul for Notation`: only `Number * Number` is implemented;
every other combination is `todo!()`, i.e. a panic (`none`). -/
def mul (a b : Nota) : Option Nota :=
  match a, b with
  | .atom (.number x), .atom (.number y) => some (algebraic_mul x y)
  | _, _ => none

/-- Rust `i32::abs`, which panics (debug) on `i32::MIN`. -/
def rustAbs (x : Int) : Option Int := if x = i32min then none else some (x.natAbs : Int)

/-- Rust `impl Div for Notation` (`src/notation/ops/div.rs`), atom part.
`none` models a panic or a non-compiling arm:
* `(_, -1) => Notation::from(-num)` panics on `num = i32::MIN` (the source
  carries the comment `Todo: i32::MAX.neg() overflows` at this arm);
* the `(Huge|NegativeHuge|Epsilon|NegativeEpsilon, Number(_))` arm of the
  source references an unbound variable `den` and does not compile;
* the combinations `Huge`-class over `Epsilon`-class have no arm at all
  (the source match is non-exhaustive). -/
def divA (a b : Atom) : Option Nota :=
  match a, b with
  | .number n, .number d =>
    if d = 0 then some (.atom .undefined)
    else if d = 1 then some (.atom (.number n))
    else if d = -1 then (if n = i32min then none else some (.atom (.number (-n))))
    else some (.expr (.fraction { num := .number n, den := .number d }))
  | _, .complex => some (.atom .complex)
  | .complex, _ => some (.atom .complex)
  | _, .undefined => some (.atom .undefined)
  | .undefined, _ => some (.atom .undefined)
  | _, .number 0 => some (.atom .undefined)
  | _, .number _ => none
  | .number n, .huge =>
    some (.atom (if n = 0 then .number 0 else if 1 ≤ n then .epsilon else .negativeEpsilon))
  | .number n, .negativeHuge =>
    some (.atom (if n = 0 then .number 0 else if 1 ≤ n then .negativeEpsilon else .epsilon))
  | .number n, .epsilon =>
    some (.atom (if n = 0 then .number 0 else if 1 ≤ n then .huge else .negativeHuge))
  | .number n, .negativeEpsilon =>
    some (.atom (if n = 0 then .number 0 else if 1 ≤ n then .negativeHuge else .huge))
  | num, .huge => some (.atom num)
  | num, .negativeHuge => some (.atom num.neg)
  | .epsilon, .epsilon => some (.atom .huge)
  | .negativeEpsilon, .negativeEpsilon => some (.atom .huge)
  | .negativeEpsilon, .epsilon => some (.atom .negativeHuge)
  | .epsilon, .negativeEpsilon => some (.atom .negativeHuge)
  | _, _ => none

/-- Rust `impl Div for Notation`: atom/atom dispatches to the atom match;
anything involving an `Expr` is `todo!()`. -/
def div (a b : Nota) : Option Nota :=
  match a, b with
  | .atom x, .atom y => divA x y
  | _, _ => none

/-- Rust `Notation::pow` (`src/notation/ops/pow.rs`).  Base `Number(0|1)`
is returned as-is.  A `Number` exponent drives `|exp|` repeated
multiplications through `Mul` (so a mid-computation `Huge` makes the next
multiplication hit `Mul`'s `todo!()` and panic), then a non-positive
exponent takes `1 / result` through `Div`.  `exp.abs()` panics on
`i32::MIN`.  `Complex`/`Undefined`/`Epsilon`-class exponents are
`todo!()`. -/
def pow (self rhs : Nota) : Option Nota :=
  match self with
  | .atom (.number 0) => some self
  | .atom (.number 1) => some self
  | base =>
    match rhs with
    | .atom (.number exp) =>
      match rustAbs exp with
      | none => none
      | some a =>
        match (List.range a.toNat).foldlM (fun result _ => Nota.mul result base)
            (Nota.atom (.number 1)) with
        | none => none
        | some result => if 0 < exp then some result else Nota.div (.atom (.number 1)) result
    | .atom .complex => none
    | .atom .undefined => none
    | .atom .huge => some (.atom .huge)
    | .atom .negativeHuge => some (.atom .epsilon)
    | .atom .epsilon => none
    | .atom .negativeEpsilon => none
    | .expr _ => none

end Nota

/-! ## The `sym` snapshot (`src/sym/…`): value model, fraction reducer, add -/

/-- Rust `enum Atom` of `src/sym/atom.rs` (with `Var` and `Unknown`). -/
inductive SAtom where
  | num (n : Int)
  | var (s : String)
  | imaginary (n : Int)
  | undefined
  | huge
  | negHuge
  | epsilon
  | negEpsilon
  | unknown
deriving DecidableEq, Repr

/-- Rust `enum Expr` of `src/sym/expr.rs` (fields inlined). -/
inductive SExpr where
  | fraction (num den : SAtom)
  | radical (coef rad : Int)
  | complexExpr (real imag : Int)
deriving DecidableEq, Repr

/-- Rust `enum Sym` of `src/sym.rs` (renamed: Mathlib already has `Sym`). -/
inductive RSym where
  | atom (a : SAtom)
  | expr (e : SExpr)
deriving DecidableEq, Repr

namespace SAtom

/-- Rust `Atom::is_positive` (sym snapshot): `Num(0..) | Huge | Epsilon`. -/
def is_positive : SAtom → Bool
  | .num n => 0 ≤ n
  | .huge => true
  | .epsilon => true
  | _ => false

/-- Rust `Atom::is_epsilon` (sym snapshot): `Epsilon | NegEpsilon`. -/
def is_epsilon : SAtom → Bool
  | .epsilon => true
  | .negEpsilon => true
  | _ => false

/-- Rust `Atom::is_huge` (sym snapshot): `Huge | NegHuge`. -/
def is_huge : SAtom → Bool
  | .huge => true
  | .negHuge => true
  | _ => false

/-- Rust `impl Neg for Atom` (sym snapshot); `signless => signless`. -/
def neg : SAtom → SAtom
  | .num n => .num (-n)
  | .huge => .negHuge
  | .negHuge => .huge
  | .epsilon => .negEpsilon
  | .negEpsilon => .epsilon
  | a => a

/-- Rust `impl PartialEq for Atom` (sym snapshot): `Num` by value, `Var`
by name, everything else `false`. -/
def rustEq : SAtom → SAtom → Bool
  | .num a, .num b => a == b
  | .var v, .var w => v == w
  | _, _ => false

end SAtom

namespace RSym

/-- Rust `impl PartialEq for Sym` restricted to atoms (all that the claims
use): delegates to `SAtom.rustEq`. -/
def rustEq : RSym → RSym → Bool
  | .atom a, .atom b => a.rustEq b
  | _, _ => false

end RSym

/-- The ordinary-fraction arm `(Num(num), Num(den))` of the sym snapshot's
`Expr::simplify` (`src/sym/expr.rs`): exact division, otherwise sign
transfer and reduction by the greatest common factor.  `pos` is the
precomputed sign agreement.  `none` models the `%`/`abs` overflow panics
exactly as in the notation snapshot. -/
def symOrdinaryFraction (pos : Bool) (n d : Int) : Option RSym :=
  if n = i32min && d = -1 then none
  else if n.tmod d = 0 then some (.atom (.num (n.tdiv d)))
  else if n = i32min || d = i32min then none
  else
    let sign : Int := if pos then 1 else -1
    let numAbs : Int := n.natAbs
    let denAbs : Int := d.natAbs
    let g := gcf numAbs denAbs
    some (.expr (.fraction (.num (sign * numAbs.tdiv g)) (.num (denAbs.tdiv g))))

namespace SAtom

/-- Models the source pattern `Imaginary(_)`. -/
def is_imaginary : SAtom → Bool
  | .imaginary _ => true
  | _ => false

/-- Rust `Atom::is_undefined` (sym snapshot). -/
def is_undefined : SAtom → Bool
  | .undefined => true
  | _ => false

/-- Rust `Atom::is_unknown` (sym snapshot). -/
def is_unknown : SAtom → Bool
  | .unknown => true
  | _ => false

/-- Models the source pattern `Num(1)`. -/
def is_num_one : SAtom → Bool
  | .num n => n == 1
  | _ => false

/-- Models the source pattern `Num(0)`. -/
def is_num_zero : SAtom → Bool
  | .num n => n == 0
  | _ => false

end SAtom

/-- The `Fraction { num, den }` branch of `Expr::simplify` in the sym
snapshot (`src/sym/expr.rs`), arms in source order — each Rust match arm
becomes one guard of the chain below.  `pos` is
`num.is_positive() == den.is_positive()` computed up front.  The
`Imaginary` arms are `todo!()` (`none`).  The guarded arm
`(n @ (Var|Num), d @ (Var|Num)) if n == d` falls through to the `Var`
arms on guard failure, which also return `Num(1)`, so the `Var`-involving
cases collapse to `Num(1)` either way, and the `Num`/`Num` case tests
`a = b` before falling to the ordinary-fraction arm. -/
def symFractionSimplify (num den : SAtom) : Option RSym :=
  let pos := num.is_positive == den.is_positive
  if num.is_imaginary || den.is_imaginary then none
  else if den.is_num_one then some (.atom num)
  else if num.is_undefined || den.is_undefined then some (.atom .undefined)
  else if num.is_unknown || den.is_unknown then some (.atom .unknown)
  else if den.is_num_zero then some (.atom .undefined)
  else if num.is_num_zero then some (.atom (.num 0))
  else
    match num, den with
    | .num a, .num b =>
      if a = b then some (.atom (.num 1)) else symOrdinaryFraction pos a b
    | .var _, _ => some (.atom (.num 1))
    | _, .var _ => some (.atom (.num 1))
    | num, .num _ =>
      some (.atom (if pos != num.is_positive then num.neg else num))
    | num, den =>
      if num.is_huge && den.is_huge then some (.atom .unknown)
      else if den.is_epsilon then
        (if num.is_epsilon then some (.atom .unknown)
         else some (.atom (if pos then .huge else .negHuge)))
      else some (.atom (if pos then .epsilon else .negEpsilon))

/-- Rust `algebraic_add` (`src/sym/ops/add.rs`): `checked_add`, falling back
to `saturating_add` to pick `Huge`/`NegHuge` (the saturated value is
i32::MAX exactly when the true sum exceeds it, i32::MIN when it falls
below; the `unreachable!()` arm is dead). -/
def algebraic_add (lhs rhs : Int) : RSym :=
  if inI32 (lhs + rhs) then .atom (.num (lhs + rhs))
  else if i32max < lhs + rhs then .atom .huge
  else .atom .negHuge

namespace RSym

/-- Rust `impl Add for Sym` (`src/sym/ops/add.rs`): only `Num + Num` is
implemented; every other combination is `todo!()` (`none`). -/
def add (a b : RSym) : Option RSym :=
  match a, b with
  | .atom (.num x), .atom (.num y) => some (algebraic_add x y)
  | _, _ => none

end RSym

example : Fraction.simplify { num := .number 4, den := .number 2 } = some (.atom (.number 2)) := by decide
example : Fraction.simplify { num := .number 2, den := .number 4 } =
    some (.expr (.fraction { num := .number 1, den := .number 2 })) := by decide
example : Radical.simplify { coef := 1, rad := 8 } = .expr (.radical { coef := 2, rad := 2 }) := by decide
example : Radical.simplify { coef := 0, rad := 2 } = .expr (.radical { coef := 1, rad := 0 }) := by decide
example : Radical.simplify { coef := -2, rad := 2 } = .expr (.radical { coef := 2, rad := 2 }) := by decide
example : factors (-12) = [(1, -12), (2, -6), (3, -4), (4, -3), (6, -2)] := by decide
example : Nota.div (.atom (.number 4)) (.atom (.number 2)) =
    some (.expr (.fraction { num := .number 4, den := .number 2 })) := by decide
example : Nota.div (.atom (.number i32min)) (.atom (.number (-1))) = none := by decide
example : Nota.pow (.atom (.number 2)) (.atom (.number i32min)) = none := by decide
example : Nota.pow (.atom (.number 2)) (.atom (.number 100)) = none := by decide
example : RSym.add (.atom (.num i32max)) (.atom (.num 1)) = some (.atom .huge) := by decide
example : RSym.add (.atom (.num i32min)) (.atom (.num (-1))) = some (.atom .negHuge) := by decide
example : RSym.add (.atom (.num i32min)) (.atom (.num i32max)) = some (.atom (.num (-1))) := by decide
example : symFractionSimplify .epsilon .negEpsilon = some (.atom .unknown) := by decide
example : symFractionSimplify (.num 3) .epsilon = some (.atom .huge) := by decide
example : symFractionSimplify (.num (-3)) .epsilon = some (.atom .negHuge) := by decide
example : Fraction.simplify { num := .number i32min, den := .number (-1) } = none := by decide

/-! ## Lemmas about the integer square-root scan -/

theorem sqrtGo_sound (fuel : Nat) : ∀ root n r : Nat, sqrtGo n root fuel = some r → r * r = n := by
  induction fuel with
  | zero =>
    intro root n r h
    simp only [sqrtGo] at h
    split at h
    · obtain rfl : root = r := by injection h
      assumption
    · exact absurd h (by simp)
  | succ fuel ih =>
    intro root n r h
    simp only [sqrtGo] at h
    split at h
    · exact ih _ _ _ h
    · split at h
      · obtain rfl : root = r := by injection h
        assumption
      · exact absurd h (by simp)

theorem sqrtGo_complete (fuel : Nat) : ∀ root r n : Nat, r * r = n → root ≤ r →
    r - root ≤ fuel → sqrtGo n root fuel = some r := by
  induction fuel with
  | zero =>
    intro root r n hr hle hfuel
    obtain rfl : root = r := by omega
    simp [sqrtGo, hr]
  | succ fuel ih =>
    intro root r n hr hle hfuel
    by_cases hlt : root * root < n
    · have hrootr : root < r := by nlinarith
      simp only [sqrtGo, if_pos hlt]
      exact ih (root + 1) r n hr (by omega) (by omega)
    · have : root = r := by nlinarith
      subst this
      simp [sqrtGo, if_neg hlt, hr]

theorem sqrt_i_sound {a r : Int} (h : sqrt_i a = some r) : r * r = a ∧ 0 ≤ r := by
  unfold sqrt_i at h
  split at h
  · exact absurd h (by simp)
  · split at h
    · rename_i h1 h2
      obtain rfl : a = r := by injection h
      have : a = 0 ∨ a = 1 := by omega
      rcases this with rfl | rfl <;> norm_num
    · rename_i h1 h2
      cases hgo : sqrtGo a.toNat 2 a.toNat with
      | none => rw [hgo] at h; exact absurd h (by simp)
      | some r0 =>
        rw [hgo] at h
        obtain rfl : ((r0 : Nat) : Int) = r := by simpa using h
        have hsq : r0 * r0 = a.toNat := sqrtGo_sound _ _ _ _ hgo
        have ha : 0 ≤ a := by omega
        constructor
        · have h3 : ((r0 * r0 : Nat) : Int) = a := by rw [hsq]; omega
          push_cast at h3
          exact h3
        · positivity

theorem sqrt_i_complete (r : Int) (hr : 0 ≤ r) : sqrt_i (r * r) = some r := by
  by_cases h0 : r = 0
  · subst h0; decide
  by_cases h1 : r = 1
  · subst h1; decide
  have hr2 : 2 ≤ r := by omega
  have hsq : 4 ≤ r * r := by nlinarith
  unfold sqrt_i
  rw [if_neg (by omega), if_neg (by omega)]
  set m := r.toNat with hm
  have hmr : (m : Int) = r := Int.toNat_of_nonneg hr
  have hcast : r * r = ((m * m : Nat) : Int) := by rw [Nat.cast_mul, hmr]
  have htn : (r * r).toNat = m * m := by rw [hcast, Int.toNat_natCast]
  rw [htn]
  have hm2 : 2 ≤ m := by omega
  have hmsq : m ≤ m * m := Nat.le_mul_of_pos_left m (by omega)
  rw [sqrtGo_complete (m * m) 2 m (m * m) rfl hm2 (by omega)]
  simp [hmr]

theorem sqrt_i_none {a : Int} (h : sqrt_i a = none) : ∀ r : Int, 0 ≤ r → r * r ≠ a := by
  intro r hr heq
  rw [← heq, sqrt_i_complete r hr] at h
  exact absurd h (by simp)

/-! ## Lemmas about `factors` and the permuted pair list -/

theorem factors_product (n : Int) : ∀ p ∈ factors n, p.1 * p.2 = n := by
  intro p hp
  simp only [factors, List.mem_cons] at hp
  rcases hp with rfl | hp
  · simp
  · obtain ⟨f, _, hf⟩ := List.mem_filterMap.mp hp
    split at hf
    · rename_i hcond
      obtain rfl : ((f : Int), n.tdiv f) = p := by injection hf
      have hdvd : (f : Int) ∣ (n.natAbs : Int) := by
        apply Int.dvd_of_tmod_eq_zero
        simpa [is_factor_of, is_multiple_of] using hcond
      have hdn : (f : Int) ∣ n := Int.dvd_natAbs.mp hdvd
      exact Int.mul_tdiv_cancel' hdn
    · exact absurd hf (by simp)

theorem allPairs_product (n : Int) : ∀ p ∈ allPairs n, p.1 * p.2 = n := by
  intro p hp
  simp only [allPairs, List.mem_flatMap] at hp
  obtain ⟨q, hq, hpq⟩ := hp
  have := factors_product n q hq
  simp only [List.mem_cons, List.mem_singleton] at hpq
  rcases hpq with rfl | rfl | h
  · exact this
  · simpa [Int.mul_comm] using this
  · simp at h

theorem allPairs_mem {n a : Int} (hn : 0 < n) (ha : a ∣ n) (ha1 : 1 ≤ a) :
    (a, n.tdiv a) ∈ allPairs n := by
  have han : a ≤ n := Int.le_of_dvd hn ha
  by_cases h1 : a = 1
  · subst h1
    simp only [allPairs, List.mem_flatMap]
    refine ⟨(1, n), by simp [factors], ?_⟩
    simp [Int.tdiv_one]
  by_cases h2 : a = n
  · subst h2
    simp only [allPairs, List.mem_flatMap]
    refine ⟨(1, a), by simp [factors], ?_⟩
    simp [Int.tdiv_self (by omega : a ≠ 0), Int.tdiv_one]
  · have h2a : 2 ≤ a := by omega
    have hlt : a < n := by omega
    simp only [allPairs, List.mem_flatMap]
    refine ⟨(a, n.tdiv a), ?_, by simp⟩
    simp only [factors, List.mem_cons]
    right
    apply List.mem_filterMap.mpr
    refine ⟨a.toNat, ?_, ?_⟩
    · apply List.mem_range'_1.mpr
      omega
    · have hc : ((a.toNat : Nat) : Int) = a := by omega
      simp only [hc]
      rw [if_pos]
      have : ((n.natAbs : Nat) : Int) = n := by omega
      rw [this]
      simp only [is_factor_of, is_multiple_of, beq_iff_eq]
      exact Int.tmod_eq_zero_of_dvd ha

/-! ## Lemmas about the greatest-perfect-square fold -/

theorem gpsStep_fst_le (acc p : Int × Int) : acc.1 ≤ (gpsStep acc p).1 := by
  unfold gpsStep
  split
  · split
    · rename_i aRoot ha hgt
      exact le_of_lt hgt
    · exact le_refl _
  · exact le_refl _

theorem gpsStep_ge_root (acc p : Int × Int) (s : Int) (h : sqrt_i p.1 = some s) :
    s ≤ (gpsStep acc p).1 := by
  unfold gpsStep
  split
  · rename_i aRoot ha
    rw [h] at ha
    obtain rfl : s = aRoot := by injection ha
    split
    · exact le_refl _
    · rename_i hn
      exact le_of_not_lt hn
  · rename_i ha
    rw [h] at ha
    exact absurd ha (by simp)

theorem gps_foldl_fst_mono (l : List (Int × Int)) :
    ∀ acc : Int × Int, acc.1 ≤ (l.foldl gpsStep acc).1 := by
  induction l with
  | nil => intro acc; exact le_refl _
  | cons p l ih =>
    intro acc
    calc acc.1 ≤ (gpsStep acc p).1 := gpsStep_fst_le acc p
      _ ≤ _ := ih (gpsStep acc p)

theorem gps_foldl_max (l : List (Int × Int)) :
    ∀ (acc : Int × Int) (p : Int × Int), p ∈ l → ∀ s : Int, sqrt_i p.1 = some s →
      s ≤ (l.foldl gpsStep acc).1 := by
  induction l with
  | nil => intro _ _ h; simp at h
  | cons q l ih =>
    intro acc p hp s hs
    rcases List.mem_cons.mp hp with rfl | hp
    · calc s ≤ (gpsStep acc p).1 := gpsStep_ge_root acc p s hs
        _ ≤ _ := gps_foldl_fst_mono l (gpsStep acc p)
    · exact ih (gpsStep acc q) p hp s hs

theorem gps_foldl_inv (n : Int) (l : List (Int × Int)) (hl : ∀ p ∈ l, p.1 * p.2 = n) :
    ∀ acc : Int × Int, 1 ≤ acc.1 → acc.1 * acc.1 * acc.2 = n →
      1 ≤ (l.foldl gpsStep acc).1 ∧
        (l.foldl gpsStep acc).1 * (l.foldl gpsStep acc).1 * (l.foldl gpsStep acc).2 = n := by
  induction l with
  | nil => intro acc h1 h2; exact ⟨h1, h2⟩
  | cons p l ih =>
    intro acc h1 h2
    have hp := hl p (List.mem_cons_self p l)
    have hstep : 1 ≤ (gpsStep acc p).1 ∧
        (gpsStep acc p).1 * (gpsStep acc p).1 * (gpsStep acc p).2 = n := by
      unfold gpsStep
      split
      · rename_i s hs
        split
        · rename_i hgt
          obtain ⟨hss, _⟩ := sqrt_i_sound hs
          constructor
          · show (1 : Int) ≤ s
            omega
          · show s * s * p.2 = n
            rw [hss]
            exact hp
        · exact ⟨h1, h2⟩
      · exact ⟨h1, h2⟩
    exact ih (fun q hq => hl q (List.mem_cons_of_mem p hq)) (gpsStep acc p) hstep.1 hstep.2

theorem gpsSearch_fst_pos (n : Int) : 1 ≤ (gpsSearch n).1 :=
  (gps_foldl_inv n (allPairs n) (allPairs_product n) (1, n) (by norm_num) (by ring)).1

theorem gpsSearch_eq (n : Int) :
    (gpsSearch n).1 * (gpsSearch n).1 * (gpsSearch n).2 = n :=
  (gps_foldl_inv n (allPairs n) (allPairs_product n) (1, n) (by norm_num) (by ring)).2

theorem gpsSearch_max (n : Int) (p : Int × Int) (hp : p ∈ allPairs n) (s : Int)
    (hs : sqrt_i p.1 = some s) : s ≤ (gpsSearch n).1 :=
  gps_foldl_max (allPairs n) (1, n) p hp s hs

/-- Squarefreeness of the searched radicand: the second component of the
greatest-perfect-square search of `n ≥ 2` has no square factor `k*k` with
`k ≥ 2` — any such factor would have produced the strictly larger root
`fst * k` at the factor pair `((fst*k)^2, cofactor)`. -/
theorem gpsSearch_squarefree (n : Int) (hn : 2 ≤ n) :
    ∀ k : Int, 2 ≤ k → ¬ (k * k ∣ (gpsSearch n).2) := by
  intro k hk hdvd
  obtain ⟨t, ht⟩ := hdvd
  set f := (gpsSearch n).1 with hf
  set m := (gpsSearch n).2 with hm
  have hf1 : 1 ≤ f := gpsSearch_fst_pos n
  have he : f * f * m = n := gpsSearch_eq n
  have hfk : 2 ≤ f * k := by nlinarith
  have hn' : n = (f * k) * (f * k) * t := by rw [← he, ht]; ring
  have ht1 : 1 ≤ t := by nlinarith
  have hadvd : (f * k) * (f * k) ∣ n := ⟨t, hn'⟩
  have ha1 : 1 ≤ (f * k) * (f * k) := by nlinarith
  have hmem := allPairs_mem (by omega : 0 < n) hadvd ha1
  have htdiv : n.tdiv ((f * k) * (f * k)) = t := by
    rw [hn', Int.mul_tdiv_cancel_left _ (by nlinarith : (f * k) * (f * k) ≠ 0)]
  have hsqrt : sqrt_i ((f * k) * (f * k)) = some (f * k) :=
    sqrt_i_complete (f * k) (by omega)
  have := gpsSearch_max n ((f * k) * (f * k), n.tdiv ((f * k) * (f * k))) hmem (f * k) hsqrt
  nlinarith

/-! ## Lemmas about the downward `gcf` scan -/

theorem gcfAux_pos (a b : Int) : ∀ k : Nat, 1 ≤ gcfAux a b k := by
  intro k
  induction k using Nat.strong_induction_on with
  | _ k ih =>
    match k with
    | 0 => simp [gcfAux]
    | 1 => simp [gcfAux]
    | k + 2 =>
      simp only [gcfAux]
      split
      · omega
      · exact ih (k + 1) (by omega)

theorem gcfAux_dvd (a b : Int) : ∀ k : Nat, gcfAux a b k ∣ a ∧ gcfAux a b k ∣ b := by
  intro k
  induction k using Nat.strong_induction_on with
  | _ k ih =>
    match k with
    | 0 => simp [gcfAux]
    | 1 => simp [gcfAux]
    | k + 2 =>
      simp only [gcfAux]
      split
      · rename_i hcond
        simp only [is_factor_of, is_multiple_of, Bool.and_eq_true, beq_iff_eq] at hcond
        exact ⟨Int.dvd_of_tmod_eq_zero hcond.1, Int.dvd_of_tmod_eq_zero hcond.2⟩
      · exact ih (k + 1) (by omega)

theorem gcfAux_max (a b : Int) : ∀ k : Nat, ∀ c : Int, 2 ≤ c → c ≤ (k : Int) →
    c ∣ a → c ∣ b → c ≤ gcfAux a b k := by
  intro k
  induction k using Nat.strong_induction_on with
  | _ k ih =>
    match k with
    | 0 => intro c hc hck _ _; simp at hck; omega
    | 1 => intro c hc hck _ _; omega
    | k + 2 =>
      intro c hc hck hca hcb
      simp only [gcfAux]
      split
      · push_cast at hck ⊢
        omega
      · rename_i hcond
        have hne : c ≠ (k : Int) + 2 := by
          intro heq
          apply hcond
          simp only [is_factor_of, is_multiple_of, Bool.and_eq_true, beq_iff_eq]
          rw [← heq]
          exact ⟨Int.tmod_eq_zero_of_dvd hca, Int.tmod_eq_zero_of_dvd hcb⟩
        have : c ≤ ((k + 1 : Nat) : Int) := by push_cast at hck ⊢; omega
        exact ih (k + 1) (by omega) c hc this hca hcb

theorem gcf_pos (a b : Int) : 1 ≤ gcf a b := gcfAux_pos a b _

theorem gcf_dvd (a b : Int) : gcf a b ∣ a ∧ gcf a b ∣ b := gcfAux_dvd a b _

theorem gcf_max {a b c : Int} (ha : 1 ≤ a) (hb : 1 ≤ b) (hc : 2 ≤ c)
    (hca : c ∣ a) (hcb : c ∣ b) : c ≤ gcf a b := by
  have h1 : c ≤ a := Int.le_of_dvd (by omega) hca
  have h2 : c ≤ b := Int.le_of_dvd (by omega) hcb
  have h3 : c ≤ ((min a b).toNat : Int) := by
    have : (1 : Int) ≤ min a b := le_min ha hb
    omega
  exact gcfAux_max a b (min a b).toNat c hc h3 hca hcb

/-! ## Lemmas about the fraction reducer -/

theorem frac_exact {n d : Int} (hd : d ≠ 0) (hmin : ¬(n = i32min ∧ d = -1)) (hdvd : d ∣ n) :
    Fraction.simplify { num := .number n, den := .number d } =
      some (.atom (.number (n.tdiv d))) := by
  have hguard : (decide (n = i32min) && decide (d = -1)) = false := by
    by_cases h1 : n = i32min
    · by_cases h2 : d = -1
      · exact absurd ⟨h1, h2⟩ hmin
      · simp [h2]
    · simp [h1]
  have htmod : n.tmod d = 0 := Int.tmod_eq_zero_of_dvd hdvd
  by_cases hn0 : n = 0
  · subst hn0
    simp [Fraction.simplify, Atom.is_complex, Atom.is_undefined, Atom.is_zero_number,
      Atom.is_huge, Atom.is_epsilon, hd]
  · simp only [Fraction.simplify, Atom.is_complex, Atom.is_undefined, Atom.is_zero_number,
      Atom.is_huge, Atom.is_epsilon, Atom.is_number, Bool.or_self, Bool.false_or,
      Bool.or_false, Bool.false_and, Bool.and_false, Bool.and_true, Bool.true_and,
      beq_iff_eq, hd, hn0, if_false, hguard, htmod, if_true]
    simp

theorem frac_notdvd {n d : Int} (hd : d ≠ 0) (hnd : ¬ d ∣ n) (hnmin : n ≠ i32min)
    (hdmin : d ≠ i32min) :
    Fraction.simplify { num := .number n, den := .number d } =
      some (.expr (.fraction
        { num := .number ((if decide (n < 0) != decide (d < 0) then (-1 : Int) else 1) *
            ((n.natAbs : Int)).tdiv (gcf (n.natAbs : Int) (d.natAbs : Int)))
          den := .number (((d.natAbs : Int)).tdiv (gcf (n.natAbs : Int) (d.natAbs : Int))) })) := by
  have hn0 : n ≠ 0 := by rintro rfl; exact hnd (dvd_zero d)
  have htmod : ¬ n.tmod d = 0 := fun h => hnd (Int.dvd_of_tmod_eq_zero h)
  have hguard : (decide (n = i32min) && decide (d = -1)) = false := by
    simp [hnmin]
  have hguard2 : ¬ (n = i32min ∨ d = i32min) := by tauto
  simp only [Fraction.simplify, Atom.is_complex, Atom.is_undefined, Atom.is_zero_number,
    Atom.is_huge, Atom.is_epsilon, Atom.is_number, Bool.or_self, Bool.false_or,
    Bool.or_false, Bool.false_and, Bool.and_false, Bool.and_true, Bool.true_and,
    beq_iff_eq, hd, hn0, if_false, hguard, htmod, hguard2]
  simp [hnmin, hdmin]

theorem reduced_core {a b : Int} (ha : 1 ≤ a) (hb : 1 ≤ b) (hab : ¬ b ∣ a)
    (hamax : a ≤ i32max) (s : Int) (hs : s = 1 ∨ s = -1) :
    Fraction.simplify
        { num := .number (s * a.tdiv (gcf a b)), den := .number (b.tdiv (gcf a b)) } =
      some (.expr (.fraction
        { num := .number (s * a.tdiv (gcf a b)), den := .number (b.tdiv (gcf a b)) })) := by
  have hm : i32min = -2147483648 := rfl
  have hM : i32max = 2147483647 := rfl
  set g := gcf a b with hgdef
  obtain ⟨hga, hgb⟩ := gcf_dvd a b
  have hg1 : 1 ≤ g := gcf_pos a b
  set A := a.tdiv g with hAdef
  set D := b.tdiv g with hDdef
  have hA : a = g * A := (Int.mul_tdiv_cancel' hga).symm
  have hB : b = g * D := (Int.mul_tdiv_cancel' hgb).symm
  have hA1 : 1 ≤ A := by nlinarith
  have hD1 : 1 ≤ D := by nlinarith
  have hD2 : 2 ≤ D := by
    rcases eq_or_lt_of_le hD1 with h1 | h1
    · exfalso
      apply hab
      rw [hB, ← h1, Int.mul_one]
      exact hga
    · omega
  have hnoc : ∀ c : Int, 2 ≤ c → c ∣ A → c ∣ D → False := by
    rintro c hc ⟨A', hA'⟩ ⟨D', hD'⟩
    have h1 : g * c ∣ a := ⟨A', by rw [hA, hA']; ring⟩
    have h2 : g * c ∣ b := ⟨D', by rw [hB, hD']; ring⟩
    have h3 : 2 ≤ g * c := by nlinarith
    have h4 : g * c ≤ g := gcf_max ha hb h3 h1 h2
    nlinarith
  have hDnA : ¬ D ∣ s * A := by
    intro hdvd
    have hDA : D ∣ A := by
      rcases hs with rfl | rfl
      · simpa using hdvd
      · rw [show (-1 : Int) * A = -A by ring, dvd_neg] at hdvd
        exact hdvd
    exact hnoc D hD2 hDA dvd_rfl
  have hAa : A ≤ a := by nlinarith
  have hD0 : D ≠ 0 := by omega
  have hsAmin : s * A ≠ i32min := by rcases hs with rfl | rfl <;> omega
  have hDmin : D ≠ i32min := by omega
  rw [frac_notdvd hD0 hDnA hsAmin hDmin]
  have hA2 : (((s * A).natAbs : Nat) : Int) = A := by rcases hs with rfl | rfl <;> omega
  have hD2' : ((D.natAbs : Nat) : Int) = D := by omega
  have hs2 : (if decide (s * A < 0) != decide (D < 0) then (-1 : Int) else 1) = s := by
    have hDn : decide (D < 0) = false := decide_eq_false (by omega)
    rcases hs with rfl | rfl
    · have h1 : decide (1 * A < 0) = false := decide_eq_false (by omega)
      rw [h1, hDn]
      simp
    · have h1 : decide (-1 * A < 0) = true := decide_eq_true (by omega)
      rw [h1, hDn]
      simp
  rw [hA2, hD2', hs2]
  have hgAD : gcf A D = 1 := by
    obtain ⟨hx, hy⟩ := gcf_dvd A D
    have hp := gcf_pos A D
    by_contra h
    exact hnoc (gcf A D) (by omega) hx hy
  rw [hgAD]
  simp

/-! ## Lemmas about the radical reducer -/

theorem radical_simplify_gps {coef rad : Int} (h2 : 2 ≤ rad) (hs : sqrt_i rad = none) :
    Radical.simplify { coef := coef, rad := rad } =
      .expr (.radical { coef := (gpsSearch (coef * coef * rad)).1
                        rad := (gpsSearch (coef * coef * rad)).2 }) := by
  simp only [Radical.simplify, Radical.squared]
  rw [if_neg (by omega), if_neg (by omega), if_neg (by omega)]
  simp only [hs]

theorem radical_n_two {coef rad : Int} (hc : coef ≠ 0) (h2 : 2 ≤ rad) :
    2 ≤ coef * coef * rad := by
  have h1 : 1 ≤ coef * coef := by
    rcases lt_or_gt_of_ne hc with h | h <;> nlinarith
  nlinarith

/-- Under a nonzero coefficient, the radicand that the greatest-perfect-square
search returns is at least 2 and is itself not a perfect square. -/
theorem radical_m_facts {coef rad : Int} (hc : coef ≠ 0) (h2 : 2 ≤ rad)
    (hsq : sqrt_i rad = none) :
    2 ≤ (gpsSearch (coef * coef * rad)).2 ∧
      sqrt_i (gpsSearch (coef * coef * rad)).2 = none := by
  set n := coef * coef * rad with hn
  have hn2 : 2 ≤ n := radical_n_two hc h2
  set f := (gpsSearch n).1 with hfdef
  set m := (gpsSearch n).2 with hmdef
  have hf1 : 1 ≤ f := gpsSearch_fst_pos n
  have he : f * f * m = n := gpsSearch_eq n
  have hm1 : 1 ≤ m := by nlinarith
  have hmne : m ≠ 1 := by
    intro h1
    rw [h1, Int.mul_one] at he
    -- n = f * f forces rad to be a perfect square, contradicting `sqrt_i rad = none`
    have hCF : coef.natAbs * coef.natAbs * rad.natAbs = f.natAbs * f.natAbs := by
      have := congrArg Int.natAbs he
      simpa [hn, Int.natAbs_mul] using this.symm
    have hC1 : 1 ≤ coef.natAbs := by omega
    have hdvd : coef.natAbs ^ 2 ∣ f.natAbs ^ 2 := by
      refine ⟨rad.natAbs, ?_⟩
      rw [Nat.pow_two, Nat.pow_two]
      omega
    have hCdvdF : coef.natAbs ∣ f.natAbs := (Nat.pow_dvd_pow_iff (by norm_num)).mp hdvd
    obtain ⟨s, hFs⟩ := hCdvdF
    have hR : rad.natAbs = s * s := by
      have hx : coef.natAbs * coef.natAbs * rad.natAbs =
          coef.natAbs * coef.natAbs * (s * s) := by
        rw [hCF, hFs]
        ring
      exact Nat.eq_of_mul_eq_mul_left (by positivity) hx
    have hR2 : 2 ≤ rad.natAbs := by omega
    have hs2 : 2 ≤ s := by
      by_contra hlt
      have hss1 : s * s ≤ 1 := by nlinarith
      have h' : rad.natAbs ≤ 1 := hR ▸ hss1
      omega
    have hradsq : ((s : Int)) * ((s : Int)) = rad := by
      have : ((s * s : Nat) : Int) = rad := by omega
      push_cast at this
      exact this
    exact sqrt_i_none hsq (s : Int) (by positivity) hradsq
  have hm2 : 2 ≤ m := by omega
  refine ⟨hm2, ?_⟩
  cases hsm : sqrt_i m with
  | none => rfl
  | some s =>
    exfalso
    obtain ⟨hss, hs0⟩ := sqrt_i_sound hsm
    have hs2 : 2 ≤ s := by nlinarith [hss, hs0, hm2]
    have : s * s ∣ m := by rw [hss]
    exact gpsSearch_squarefree n hn2 s hs2 this

theorem radical_simplify_root {coef rad root : Int} (h2 : 2 ≤ rad)
    (hs : sqrt_i rad = some root) :
    Radical.simplify { coef := coef, rad := rad } = .atom (.number (coef * root)) := by
  simp only [Radical.simplify, Radical.squared]
  rw [if_neg (by omega), if_neg (by omega), if_neg (by omega)]
  simp only [hs]

/-- The radical reducer's output re-simplifies to itself whenever the
coefficient is nonzero (the `coef = 0` inputs are the exception, see the
counterexample for C3). -/
theorem radical_idem (r : Radical) (hc : r.coef ≠ 0) :
    Nota.resimplify (Radical.simplify r) = some (Radical.simplify r) := by
  obtain ⟨coef, rad⟩ := r
  simp only at hc
  by_cases h1 : rad ≤ -1
  · simp only [Radical.simplify]
    rw [if_pos h1]
    rfl
  by_cases h2 : rad = 0
  · simp only [Radical.simplify]
    rw [if_neg h1, if_pos h2]
    rfl
  by_cases h3 : rad = 1
  · simp only [Radical.simplify]
    rw [if_neg h1, if_neg h2, if_pos h3]
    rfl
  have h4 : 2 ≤ rad := by omega
  cases hq : sqrt_i rad with
  | some root =>
    rw [radical_simplify_root h4 hq]
    rfl
  | none =>
    rw [radical_simplify_gps h4 hq]
    obtain ⟨hm2, hmsq⟩ := radical_m_facts hc h4 hq
    show some (Radical.simplify _) = _
    rw [radical_simplify_gps hm2 hmsq, gpsSearch_eq (coef * coef * rad)]

/-- Division by `Number(0)` is `Undefined` for a `Number` numerator. -/
theorem frac_den0 (n : Int) :
    Fraction.simplify { num := .number n, den := .number 0 } = some (.atom .undefined) := by
  simp [Fraction.simplify, Atom.is_complex, Atom.is_undefined, Atom.is_zero_number]

/-- The `i32::MIN % -1` overflow panic of the fraction reducer. -/
theorem frac_min_neg_one :
    Fraction.simplify { num := .number i32min, den := .number (-1) } = none := by decide

/-- The `.abs()` overflow panics of the fraction reducer's reduction branch. -/
theorem frac_overflow {n d : Int} (hd : d ≠ 0) (hnd : ¬ d ∣ n)
    (h : n = i32min ∨ d = i32min) :
    Fraction.simplify { num := .number n, den := .number d } = none := by
  have hn0 : n ≠ 0 := by rintro rfl; exact hnd (dvd_zero d)
  have htmod : ¬ n.tmod d = 0 := fun hx => hnd (Int.dvd_of_tmod_eq_zero hx)
  by_cases hp : n = i32min ∧ d = -1
  · obtain ⟨rfl, rfl⟩ := hp
    decide
  · have hguard : (decide (n = i32min) && decide (d = -1)) = false := by
      by_cases h1 : n = i32min
      · by_cases h2 : d = -1
        · exact absurd ⟨h1, h2⟩ hp
        · simp [h2]
      · simp [h1]
    have hor : (decide (n = i32min) || decide (d = i32min)) = true := by
      rcases h with rfl | rfl <;> simp
    simp only [Fraction.simplify, Atom.is_complex, Atom.is_undefined, Atom.is_zero_number,
      Atom.is_huge, Atom.is_epsilon, Atom.is_number, Bool.or_self, Bool.false_or,
      Bool.or_false, Bool.false_and, Bool.and_false, Bool.and_true, Bool.true_and,
      beq_iff_eq, hd, hn0, if_false, hguard, htmod, hor]
    simp

/-- Re-simplifying a fraction expression re-enters the fraction reducer. -/
theorem resimplify_fraction (f : Fraction) :
    Nota.resimplify (.expr (.fraction f)) = Fraction.simplify f := rfl

/-- The fraction reducer's output re-simplifies to itself for every in-range
fraction whose simplification does not panic. -/
theorem fraction_idem (f : Fraction) (w : Nota) (hr : f.inRange = true)
    (hs : Fraction.simplify f = some w) : Nota.resimplify w = some w := by
  cases w with
  | atom a => rfl
  | expr e =>
    obtain ⟨num, den⟩ := f
    rcases num with n | _ | _ | _ | _ | _ | _ <;> rcases den with d | _ | _ | _ | _ | _ | _
    · -- the (Number, Number) arm: the only arm that can produce an `Expr`
      have hd0 : d ≠ 0 := by
        rintro rfl
        rw [frac_den0] at hs
        exact absurd hs (by simp)
      have hnd : ¬ d ∣ n := by
        intro hdvd
        by_cases hpanic : n = i32min ∧ d = -1
        · obtain ⟨rfl, rfl⟩ := hpanic
          rw [frac_min_neg_one] at hs
          exact absurd hs (by simp)
        · rw [frac_exact hd0 hpanic hdvd] at hs
          exact absurd hs (by simp)
      have hboth : n ≠ i32min ∧ d ≠ i32min := by
        by_cases hor : n = i32min ∨ d = i32min
        · rw [frac_overflow hd0 hnd hor] at hs
          exact absurd hs (by simp)
        · tauto
      rw [frac_notdvd hd0 hnd hboth.1 hboth.2] at hs
      simp only [Option.some.injEq, Nota.expr.injEq] at hs
      subst hs
      rw [resimplify_fraction]
      have hrange : i32min ≤ n ∧ n ≤ i32max := by
        simp only [Fraction.inRange, Atom.inRange, inI32, Bool.and_eq_true,
          decide_eq_true_eq] at hr
        exact hr.1
      have hm : i32min = -2147483648 := rfl
      have hM : i32max = 2147483647 := rfl
      have hn0 : n ≠ 0 := by rintro rfl; exact hnd (dvd_zero d)
      have ha : 1 ≤ ((n.natAbs : Nat) : Int) := by omega
      have hb : 1 ≤ ((d.natAbs : Nat) : Int) := by omega
      have hab : ¬ ((d.natAbs : Nat) : Int) ∣ ((n.natAbs : Nat) : Int) := by
        intro hdvd
        apply hnd
        rw [Int.natCast_dvd_natCast] at hdvd
        exact Int.natAbs_dvd_natAbs.mp hdvd
      have hamax : ((n.natAbs : Nat) : Int) ≤ i32max := by omega
      exact reduced_core ha hb hab hamax
        (if decide (n < 0) != decide (d < 0) then (-1 : Int) else 1)
        (by split_ifs <;> simp)
    all_goals
      simp [Fraction.simplify, Atom.is_complex, Atom.is_undefined, Atom.is_zero_number,
        Atom.is_huge, Atom.is_epsilon, Atom.is_number] at hs
    all_goals
      split_ifs at hs <;> simp at hs

/-! ## Claim theorems -/

/-- C1: the spec claims every arithmetic operator is total on `Number` atoms
and never panics — in particular `Number(n) / Number(-1)` for every `n`
including `i32::MIN`, and `pow` for every exponent including `i32::MIN`.
The code violates this: `Number(i32::MIN) / Number(-1)` hits the `-num`
overflow (flagged by the source's own `Todo` comment), `pow` with exponent
`i32::MIN` panics in `exp.abs()`, and `pow(2, 100)` reaches the `todo!()`
of `Mul` once the accumulator saturates to `Huge`.  Each panic is the
`none` of the model. -/
theorem claim_C1_operators_panic :
    Nota.div (.atom (.number i32min)) (.atom (.number (-1))) = none ∧
    Nota.pow (.atom (.number 2)) (.atom (.number i32min)) = none ∧
    Nota.pow (.atom (.number 2)) (.atom (.number 100)) = none := by
  decide

/-- C2 counterexample: `Fraction{Undefined, Number(1)}.simplify()` does yield
the `Undefined` atom, but it does NOT compare `==` to `Undefined` — `Atom`'s
`PartialEq` makes `Undefined` unequal to everything, including itself — so
the claim's `simplify() == Undefined` is false. -/
theorem claim_C2_cex :
    Fraction.simplify { num := .undefined, den := .number 1 } = some (.atom .undefined) ∧
    Nota.rustEqAtom (.atom .undefined) .undefined = false := by
  decide

/-- C2 amended: for every atom `x` other than `Complex`,
`Fraction{Undefined, x}.simplify()` and `Fraction{x, Number(0)}.simplify()`
are structurally the `Undefined` atom (testable via `is_undefined`); when
`x` is `Complex` the Complex arm wins and the result is `Complex`; and in no
case does any result compare `==` to `Undefined`, because `Undefined`
equality is intentionally never true. -/
theorem claim_C2_amended :
    (∀ x : Atom, x ≠ .complex →
      Fraction.simplify { num := .undefined, den := x } = some (.atom .undefined) ∧
      Fraction.simplify { num := x, den := .number 0 } = some (.atom .undefined)) ∧
    Fraction.simplify { num := .undefined, den := .complex } = some (.atom .complex) ∧
    Fraction.simplify { num := .complex, den := .number 0 } = some (.atom .complex) ∧
    (∀ w : Nota, Nota.rustEqAtom w .undefined = false) := by
  refine ⟨?_, by decide, by decide, ?_⟩
  · intro x hx
    cases x
    case complex => exact absurd rfl hx
    all_goals exact
      ⟨by simp [Fraction.simplify, Atom.is_complex, Atom.is_undefined],
       by simp [Fraction.simplify, Atom.is_complex, Atom.is_undefined, Atom.is_zero_number]⟩
  · intro w
    cases w with
    | atom a => cases a <;> rfl
    | expr e => rfl

/-- C2 witness: the amended statement at the concrete atom `Number(5)`. -/
theorem claim_C2_witness :
    Fraction.simplify { num := .undefined, den := .number 5 } = some (.atom .undefined) ∧
    Fraction.simplify { num := .number 5, den := .number 0 } = some (.atom .undefined) :=
  claim_C2_amended.1 (.number 5) (by decide)

/-- C3 counterexample: idempotence fails at `Radical{coef: 0, rad: 2}`.  Its
simplification is `Radical{1, 0}`; re-simplifying that yields `Number(0)`,
which is not `==`-equal (nor structurally equal) to `Radical{1, 0}`. -/
theorem claim_C3_cex :
    Radical.simplify { coef := 0, rad := 2 } = .expr (.radical { coef := 1, rad := 0 }) ∧
    Nota.resimplify (.expr (.radical { coef := 1, rad := 0 })) = some (.atom (.number 0)) ∧
    Nota.rustEq (.atom (.number 0)) (.expr (.radical { coef := 1, rad := 0 })) = false := by
  decide

/-- C3 amended: re-simplification is structurally idempotent for every
in-range `Fraction` whose simplification does not panic, and for every
`Radical` with a nonzero coefficient (Rust `==` additionally fails on every
sentinel result, and `Radical`s with coefficient 0 are genuine
counterexamples — see the counterexample theorem). -/
theorem claim_C3_amended :
    (∀ (f : Fraction) (w : Nota), f.inRange = true → Fraction.simplify f = some w →
      Nota.resimplify w = some w) ∧
    (∀ r : Radical, r.coef ≠ 0 →
      Nota.resimplify (Radical.simplify r) = some (Radical.simplify r)) :=
  ⟨fraction_idem, radical_idem⟩

/-- C3 witness: idempotence at the concrete values `Fraction{2, 4}` (whose
simplification is the reduced fraction 1/2) and `Radical{3, 8}`. -/
theorem claim_C3_witness :
    Nota.resimplify (.expr (.fraction { num := .number 1, den := .number 2 })) =
      some (.expr (.fraction { num := .number 1, den := .number 2 })) ∧
    Nota.resimplify (Radical.simplify { coef := 3, rad := 8 }) =
      some (Radical.simplify { coef := 3, rad := 8 }) :=
  ⟨claim_C3_amended.1 { num := .number 2, den := .number 4 }
      (.expr (.fraction { num := .number 1, den := .number 2 })) (by decide) (by decide),
   claim_C3_amended.2 { coef := 3, rad := 8 } (by norm_num)⟩

/-- C4 counterexample: `Notation(4) / Notation(2)` returns the unsimplified
`Fraction{4, 2}`, while the Fraction Reducer yields `Number(2)`; the two
results are different values and do not compare `==`. -/
theorem claim_C4_cex :
    Nota.div (.atom (.number 4)) (.atom (.number 2)) =
      some (.expr (.fraction { num := .number 4, den := .number 2 })) ∧
    Fraction.simplify { num := .number 4, den := .number 2 } = some (.atom (.number 2)) ∧
    Nota.rustEq (.expr (.fraction { num := .number 4, den := .number 2 }))
      (.atom (.number 2)) = false := by
  decide

/-- C4 amended: division of two `Number` atoms does not delegate to the
Fraction Reducer.  For a denominator outside `{0, 1, -1}` it returns the
raw unsimplified `Fraction{num, den}`; whenever the denominator divides the
numerator the reducer would instead return the integer quotient, so the two
disagree on every such pair. -/
theorem claim_C4_amended (n d : Int) (h0 : d ≠ 0) (h1 : d ≠ 1) (hm1 : d ≠ -1) :
    Nota.div (.atom (.number n)) (.atom (.number d)) =
      some (.expr (.fraction { num := .number n, den := .number d })) ∧
    (d ∣ n →
      Fraction.simplify { num := .number n, den := .number d } =
        some (.atom (.number (n.tdiv d))) ∧
      Nota.div (.atom (.number n)) (.atom (.number d)) ≠
        Fraction.simplify { num := .number n, den := .number d }) := by
  have hdiv : Nota.div (.atom (.number n)) (.atom (.number d)) =
      some (.expr (.fraction { num := .number n, den := .number d })) := by
    simp [Nota.div, Nota.divA, h0, h1, hm1]
  refine ⟨hdiv, fun hdvd => ?_⟩
  have hex := frac_exact h0 (by tauto) hdvd
  refine ⟨hex, ?_⟩
  rw [hdiv, hex]
  simp

/-- C4 witness: the amended statement at `Number(4) / Number(2)`. -/
theorem claim_C4_witness :
    Nota.div (.atom (.number 4)) (.atom (.number 2)) =
      some (.expr (.fraction { num := .number 4, den := .number 2 })) ∧
    Fraction.simplify { num := .number 4, den := .number 2 } = some (.atom (.number 2)) ∧
    Nota.div (.atom (.number 4)) (.atom (.number 2)) ≠
      Fraction.simplify { num := .number 4, den := .number 2 } := by
  have h := claim_C4_amended 4 2 (by norm_num) (by norm_num) (by norm_num)
  exact ⟨h.1, (h.2 (by norm_num)).1, (h.2 (by norm_num)).2⟩

/-- C5 counterexample: at `n = i32::MIN`, `d = -1` (where `d` divides `n`)
the reducer panics computing `i32::MIN % -1` instead of producing
`Number(n/d)`; the true quotient 2^31 is not even representable. -/
theorem claim_C5_cex :
    Fraction.simplify { num := .number i32min, den := .number (-1) } = none ∧
    Fraction.simplify { num := .number i32min, den := .number (-1) } ≠
      some (.atom (.number (i32min.tdiv (-1)))) := by
  decide

/-- C5 amended: for all in-range `n`, `d` with `d ≠ 0`, `d ∣ n` and
`(n, d) ≠ (i32::MIN, -1)`, the reducer returns `Number(n/d)` and that
result compares `==` to `Number(n/d)`. -/
theorem claim_C5_amended (n d : Int) (_hn : inI32 n = true) (_hd : inI32 d = true)
    (h0 : d ≠ 0) (hdvd : d ∣ n) (hmin : ¬(n = i32min ∧ d = -1)) :
    Fraction.simplify { num := .number n, den := .number d } =
      some (.atom (.number (n.tdiv d))) ∧
    Nota.rustEqAtom (.atom (.number (n.tdiv d))) (.number (n.tdiv d)) = true := by
  refine ⟨frac_exact h0 hmin hdvd, ?_⟩
  simp [Nota.rustEqAtom, Atom.rustEq]

/-- C5 witness: the amended statement at `Fraction{-6, 3}`. -/
theorem claim_C5_witness :
    Fraction.simplify { num := .number (-6), den := .number 3 } =
      some (.atom (.number (-2))) ∧
    Nota.rustEqAtom (.atom (.number (-2))) (.number (-2)) = true :=
  claim_C5_amended (-6) 3 (by decide) (by decide) (by norm_num)
    ⟨-2, by norm_num⟩ (by decide)

/-- C6: in the sym snapshot's fraction reducer, when the earlier arms do not
apply and the denominator is `Epsilon`-class, an `Epsilon`-class numerator
yields `Unknown` (two unrepresentable magnitudes), and any other surviving
numerator (a nonzero `Num`, or a `Huge`-class sentinel) yields `Huge` when
the two signs agree and `NegHuge` when they differ. -/
theorem claim_C6 (num den : SAtom) (hden : den.is_epsilon = true) :
    (num.is_epsilon = true → symFractionSimplify num den = some (.atom .unknown)) ∧
    (∀ n : Int, num = .num n → n ≠ 0 →
      symFractionSimplify num den =
        some (.atom (if num.is_positive == den.is_positive then .huge else .negHuge))) ∧
    (num.is_huge = true →
      symFractionSimplify num den =
        some (.atom (if num.is_positive == den.is_positive then .huge else .negHuge))) := by
  cases den <;> try simp [SAtom.is_epsilon] at hden
  all_goals
    refine ⟨?_, ?_, ?_⟩
    · intro hne
      rcases num <;> simp [SAtom.is_epsilon] at hne <;> decide
    · rintro n rfl hn
      simp [symFractionSimplify, SAtom.is_imaginary, SAtom.is_num_one, SAtom.is_undefined,
        SAtom.is_unknown, SAtom.is_num_zero, SAtom.is_epsilon, SAtom.is_huge, hn]
    · intro hh
      rcases num <;> simp [SAtom.is_huge] at hh <;> decide

/-- C6 witness: `Epsilon / NegEpsilon` is `Unknown`, and
`Num(3) / NegEpsilon` is `NegHuge` (signs differ). -/
theorem claim_C6_witness :
    symFractionSimplify .epsilon .negEpsilon = some (.atom .unknown) ∧
    symFractionSimplify (.num 3) .negEpsilon = some (.atom .negHuge) := by
  constructor
  · exact (claim_C6 .epsilon .negEpsilon (by decide)).1 (by decide)
  · exact (claim_C6 (.num 3) .negEpsilon (by decide)).2.1 3 rfl (by norm_num)

/-- C7: `Number(i32::MAX) + Number(1)` is the positive `Huge` sentinel,
`Number(i32::MIN) + Number(-1)` is `NegHuge`, and
`Number(i32::MIN) + Number(i32::MAX)` is exactly `Number(-1)` — no false
overflow — and that sum compares `==` to `Number(-1)`. -/
theorem claim_C7 :
    RSym.add (.atom (.num i32max)) (.atom (.num 1)) = some (.atom .huge) ∧
    SAtom.huge.is_positive = true ∧
    RSym.add (.atom (.num i32min)) (.atom (.num (-1))) = some (.atom .negHuge) ∧
    RSym.add (.atom (.num i32min)) (.atom (.num i32max)) = some (.atom (.num (-1))) ∧
    RSym.rustEq (.atom (.num (-1))) (.atom (.num (-1))) = true := by
  decide

/-- C8 counterexample: `factors(-12)` does NOT contain the pair `(12, -1)`
(trial division runs over `2..|n|`, excluding `|n|` itself), so the claimed
factor set `{1, 2, 3, 4, 6, 12}` is wrong — `12` never appears as a factor
component. -/
theorem claim_C8_cex :
    factors (-12) = [(1, -12), (2, -6), (3, -4), (4, -3), (6, -2)] ∧
    (12, -1) ∉ factors (-12) ∧
    (factors (-12)).all (fun p => p.1 != 12) = true := by
  decide

/-- C8 amended: `factors(-12)` is exactly
`[(1,-12), (2,-6), (3,-4), (4,-3), (6,-2)]` — factor components
`{1, 2, 3, 4, 6}`, cofactors `{-12, -6, -4, -3, -2}` — every pair
multiplying to -12 and the sequence starting with `(1, -12)`. -/
theorem claim_C8_amended :
    factors (-12) = [(1, -12), (2, -6), (3, -4), (4, -3), (6, -2)] ∧
    (factors (-12)).all (fun p => p.1 * p.2 == -12) = true ∧
    (factors (-12)).head? = some (1, -12) := by
  decide

/-- C9 counterexample: at `coef = 0`, `rad = 2` the reducer returns the
radical `Radical{1, 0}` whose radicand 0 is divisible by the perfect square
4 = 2² > 1, violating the claimed canonical-radicand invariant (which the
claim asserts "including coef = 0"). -/
theorem claim_C9_cex :
    Radical.simplify { coef := 0, rad := 2 } = .expr (.radical { coef := 1, rad := 0 }) ∧
    (2 : Int) * 2 ∣ 0 := by
  exact ⟨by decide, ⟨0, by norm_num⟩⟩

/-- C9 amended: for every `Radical{coef, rad}` with `coef ≠ 0`, whenever the
reducer returns a `Radical`, its radicand is divisible by no perfect square
`k * k` with `k ≥ 2`. -/
theorem claim_C9_amended (coef rad c' r' : Int) (hc : coef ≠ 0)
    (hs : Radical.simplify { coef := coef, rad := rad } =
      .expr (.radical { coef := c', rad := r' })) :
    ∀ k : Int, 2 ≤ k → ¬ (k * k ∣ r') := by
  intro k hk
  by_cases h1 : rad ≤ -1
  · exfalso
    simp only [Radical.simplify] at hs
    rw [if_pos h1] at hs
    exact absurd hs (by simp)
  by_cases h2 : rad = 0
  · exfalso
    simp only [Radical.simplify] at hs
    rw [if_neg h1, if_pos h2] at hs
    exact absurd hs (by simp)
  by_cases h3 : rad = 1
  · exfalso
    simp only [Radical.simplify] at hs
    rw [if_neg h1, if_neg h2, if_pos h3] at hs
    exact absurd hs (by simp)
  have h4 : 2 ≤ rad := by omega
  cases hq : sqrt_i rad with
  | some root =>
    exfalso
    rw [radical_simplify_root h4 hq] at hs
    exact absurd hs (by simp)
  | none =>
    rw [radical_simplify_gps h4 hq] at hs
    simp only [Nota.expr.injEq, Expr.radical.injEq, Radical.mk.injEq] at hs
    rw [← hs.2]
    exact gpsSearch_squarefree _ (radical_n_two hc h4) k hk

/-- C9 witness: the amended statement at `Radical{1, 8}`, whose
simplification is `Radical{2, 2}`: no square `≥ 4` divides the radicand 2. -/
theorem claim_C9_witness : ¬ ((2 : Int) * 2 ∣ 2) :=
  claim_C9_amended 1 8 2 2 (by norm_num) (by decide) 2 (by norm_num)

/-- C10: for every `Radical{coef, rad}` with `coef < 0` and `rad ≥ 2` not a
perfect square, the reducer returns a `Radical` whose coefficient is
positive (≥ 1): squaring the whole radical before the perfect-square search
discards the input coefficient's sign.  In particular `Radical{-2, 2}`
simplifies to `Radical{2, 2}`. -/
theorem claim_C10 :
    (∀ coef rad : Int, coef < 0 → 2 ≤ rad → (¬ ∃ s : Int, s * s = rad) →
      ∃ c' r' : Int,
        Radical.simplify { coef := coef, rad := rad } =
          .expr (.radical { coef := c', rad := r' }) ∧ 1 ≤ c') ∧
    Radical.simplify { coef := -2, rad := 2 } = .expr (.radical { coef := 2, rad := 2 }) := by
  constructor
  · intro coef rad hc h2 hnsq
    have hq : sqrt_i rad = none := by
      cases hq : sqrt_i rad with
      | none => rfl
      | some s =>
        obtain ⟨hss, _⟩ := sqrt_i_sound hq
        exact absurd ⟨s, hss⟩ hnsq
    exact ⟨_, _, radical_simplify_gps h2 hq, gpsSearch_fst_pos _⟩
  · decide

/-- C10 witness: the universal part applied at `Radical{-2, 2}`. -/
theorem claim_C10_witness :
    ∃ c' r' : Int,
      Radical.simplify { coef := -2, rad := 2 } =
        .expr (.radical { coef := c', rad := r' }) ∧ 1 ≤ c' :=
  claim_C10.1 (-2) 2 (by norm_num) (by norm_num) (by
    rintro ⟨s, hs⟩
    have h1 : s ≤ 1 := by nlinarith [sq_nonneg (s - 1)]
    have h2 : -1 ≤ s := by nlinarith [sq_nonneg (s + 1)]
    interval_cases s <;> norm_num at hs)
